import Mathlib

/-!
Shallow embedding of the `RedisDataLoader` class (a Redis-backed batching
cache loader). JavaScript runtime values that can sit in a resolution
entry's value slot are modelled by `JSVal` (undefined, null, a domain
value, or an error); the Redis store is modelled as an association list
from store-key strings to a stored string together with the TTL it was
written with. Asynchronous store round trips are modelled by explicit
state passing; the external fallback batch fetch is a parameter, and every
invocation of it is recorded so that call-count properties can be stated.
-/

/-- Errors distinguishable by the loader: the dedicated not-found error
class versus any other error. -/
inductive Err where
  | notFound
  | other (msg : String)
deriving DecidableEq, Repr

/-- JavaScript values that can occupy a resolution entry's value slot:
`undefined`, `null`, a domain value, or an error object. -/
inductive JSVal (V : Type) where
  | undef
  | null
  | val (v : V)
  | err (e : Err)
deriving DecidableEq, Repr

namespace JSVal

/-- Test for the JavaScript `undefined` value (the `=== undefined` check). -/
def isUndef : JSVal V → Bool
  | .undef => true
  | _ => false

/-- Test for JavaScript nullish values (`undefined` or `null`), the values
treated as absent by the `??` operator. -/
def isNullish : JSVal V → Bool
  | .undef => true
  | .null => true
  | _ => false

/-- Test for `value instanceof Error`. -/
def isErr : JSVal V → Bool
  | .err _ => true
  | _ => false

end JSVal

/-- JavaScript nullish coalescing `a ?? b`. -/
def jsCoalesce : JSVal V → JSVal V → JSVal V
  | .undef, b => b
  | .null, b => b
  | a, _ => a

/-- One Redis store entry: key, stored string value, and the TTL (EX
argument) it was last written with. -/
abbrev Store := List (String × String × Nat)

/-- Full lookup of a store entry (value and TTL) by key. -/
def storeGetEntry (s : Store) (k : String) : Option (String × Nat) :=
  (s.find? (fun p => p.1 == k)).map (fun p => p.2)

/-- Redis GET: the stored string, or `none` (Redis `nil`) when absent. -/
def storeGet (s : Store) (k : String) : Option String :=
  (storeGetEntry s k).map (fun p => p.1)

/-- Redis SET with EX: replaces any previous entry under the key. -/
def storeSet (s : Store) (k v : String) (ttl : Nat) : Store :=
  (k, v, ttl) :: s.filter (fun p => p.1 != k)

/-- Redis DEL of one key: the number of keys removed and the new store. -/
def storeDel (s : Store) (k : String) : Nat × Store :=
  if (storeGet s k).isSome then (1, s.filter (fun p => p.1 != k))
  else (0, s)

/-- The reserved negative-cache sentinel string
(`RedisDataLoader.NOT_FOUND_STRING`). -/
def NOT_FOUND_STRING : String := "___NOTFOUND___"

/-- Configuration of a loader: the recognized options object
(`DataLoader.Options & CustomNotFound & RedisDataloaderOptionsRequired`).
Caller-supplied serialize/deserialize and the optional not-found factory
are modelled as functions on JavaScript values, since at runtime they can
receive or produce `null`/`undefined`. -/
structure Options (K V : Type) where
  notFound : Option (K → JSVal V)
  serialize : JSVal V → String
  deserialize : K → String → JSVal V
  ttl : Nat
  ttlNotFound : Option Nat
  cacheKeyFn : Option (K → String)

/-- A loader instance: its (suffix-adjusted) name, the JavaScript string
coercion used for keys when no `cacheKeyFn` is configured, and its
options. -/
structure Loader (K V : Type) where
  name : String
  keyStr : K → String
  options : Options K V

/-- The external fallback batch fetch (`underlyingBatchLoadFn`): an
ordered key list to an ordered result list, each slot a value,
`undefined`, `null`, or an error. -/
abbrev Fetch (K V : Type) := List K → List (JSVal V)

/-- Store key derivation (`redisKey`): `name` + `:` + normalized key. -/
def redisKey (L : Loader K V) (k : K) : String :=
  L.name ++ ":" ++ (match L.options.cacheKeyFn with
    | some f => f k
    | none => L.keyStr k)

/-- The value of `options.notFound?.(key)`: `undefined` when no handler is
configured, otherwise the handler's output. -/
def notFoundApply (L : Loader K V) (k : K) : JSVal V :=
  match L.options.notFound with
  | some f => f k
  | none => (.undef)

/-- One resolution entry of `mapRedisKeyToModelKey`: the store key, one
representative logical key, and the mutable value slot. -/
structure Entry (K V : Type) where
  redisKey : String
  key : K
  value : JSVal V
deriving DecidableEq, Repr

/-- Order-preserving deduplication with a seen-set, as
`[...new Set(xs)]` produces (first occurrences, in order). -/
def dedupFirst (l : List String) : List String :=
  go l []
where
  /-- Worker carrying the set of already-emitted strings. -/
  go : List String → List String → List String
  | [], _ => []
  | x :: xs, seen => if x ∈ seen then go xs seen else x :: go xs (x :: seen)

/-- Construction of the resolution entries: one per distinct store key of
the input, whose representative logical key is the first input key mapping
to it and whose value slot starts `undefined`. -/
def mkEntries (L : Loader K V) [Inhabited K] (keys : List K) : List (Entry K V) :=
  (dedupFirst (keys.map (redisKey L))).map (fun rKey =>
    { redisKey := rKey
      key := (keys.find? (fun o => redisKey L o == rKey)).getD default
      value := .undef })

/-- The per-entry store read of the cached-value phase: a stored sentinel
sets the slot to `notFound?.(key) ?? undefined`; any other stored string
is deserialized into the slot; absence leaves the slot untouched. -/
def readEntry (L : Loader K V) (s : Store) (e : Entry K V) : Entry K V :=
  match storeGet s e.redisKey with
  | none => e
  | some data =>
      if data = NOT_FOUND_STRING then
        { e with value := jsCoalesce (notFoundApply L e.key) .undef }
      else
        { e with value := L.options.deserialize e.key data }

/-- Assignment of the fallback results to the entries whose slot is still
`undefined`, in order: the j-th such entry receives `results[j]`
(an out-of-range index reads as `undefined`). -/
def applyFetch : List (Entry K V) → List (JSVal V) → List (Entry K V)
  | [], _ => []
  | e :: es, rs =>
      if e.value.isUndef then
        { e with value := rs.headD .undef } :: applyFetch es rs.tail
      else
        e :: applyFetch es rs

/-- The private `store` method: serialize and SET under the positive TTL;
the Boolean is `result === 'OK'`. -/
def store (L : Loader K V) (rKey : String) (v : JSVal V) (s : Store) : Bool × Store :=
  (true, storeSet s rKey (L.options.serialize v) L.options.ttl)

/-- The private `storeNotFoundError` method: SET the sentinel under
`ttlNotFound ?? 30`. -/
def storeNotFoundError (L : Loader K V) (rKey : String) (s : Store) : Bool × Store :=
  (true, storeSet s rKey NOT_FOUND_STRING (L.options.ttlNotFound.getD 30))

/-- The write-back for one freshly fetched entry: `undefined` or a
not-found error stores the sentinel; any non-error value is stored under
the positive TTL; any other error is not written. -/
def writeOne (L : Loader K V) (e : Entry K V) (s : Store) : Store :=
  match e.value with
  | .undef => (storeNotFoundError L e.redisKey s).2
  | .err .notFound => (storeNotFoundError L e.redisKey s).2
  | .err (.other _) => s
  | v => (store L e.redisKey v s).2

/-- The write-back pass over the fetched entries. -/
def writeFold (L : Loader K V) (ms : List (Entry K V)) (s : Store) : Store :=
  ms.foldl (fun st e => writeOne L e st) s

/-- The entries after the concurrent store-read phase. -/
def readEntries (L : Loader K V) [Inhabited K] (s : Store) (keys : List K) :
    List (Entry K V) :=
  (mkEntries L keys).map (readEntry L s)

/-- The entries still unresolved after the store-read phase
(`keysToLoadFromDatasource`). -/
def missingEntries (L : Loader K V) [Inhabited K] (s : Store) (keys : List K) :
    List (Entry K V) :=
  (readEntries L s keys).filter (fun e => e.value.isUndef)

/-- The representative logical keys handed to the fallback fetch. -/
def missingKeys (L : Loader K V) [Inhabited K] (s : Store) (keys : List K) : List K :=
  (missingEntries L s keys).map (fun e => e.key)

/-- The body of `overridedBatchLoad` up to (but excluding) the final
per-input-position mapping: the resolved entries, the updated store, and
the list of fallback-fetch invocations performed. -/
def resolvePhase (L : Loader K V) [Inhabited K] (fetch : Fetch K V)
    (keys : List K) (s : Store) :
    List (Entry K V) × Store × List (List K) :=
  let entries1 := readEntries L s keys
  let missing := missingEntries L s keys
  if missing.isEmpty then
    (entries1, s, [])
  else
    let results := fetch (missingKeys L s keys)
    (applyFetch entries1 results,
     writeFold L (applyFetch missing results) s,
     [missingKeys L s keys])

/-- The output produced for one input key from the resolved entries:
`find(...)?.value ?? notFound?.(key) ?? null`. -/
def lookupResult (L : Loader K V) (entries : List (Entry K V)) (k : K) : JSVal V :=
  jsCoalesce
    (((entries.find? (fun e => e.redisKey == redisKey L k)).map (fun e => e.value)).getD .undef)
    (jsCoalesce (notFoundApply L k) .null)

/-- The final mapping of `overridedBatchLoad`: one output per input
position, by keyed lookup into the resolved entries. -/
def finalMap (L : Loader K V) (entries : List (Entry K V)) (keys : List K) : List (JSVal V) :=
  keys.map (lookupResult L entries)

/-- The overridden batch function `overridedBatchLoad`: deduplicate, read
the store, fetch the misses from the datasource, write results back, and
assemble the per-position outputs. Returns the outputs, the updated
store, and the fallback invocations performed. -/
def overridedBatchLoad (L : Loader K V) [Inhabited K] (fetch : Fetch K V)
    (keys : List K) (s : Store) : List (JSVal V) × Store × List (List K) :=
  let r := resolvePhase L fetch keys s
  (finalMap L r.1 keys, r.2.1, r.2.2)

/-- A single `load(key)`: with the memoization cache disabled the batch
coordinator hands the batch function the singleton key list; the caller
receives the output at its position (an error output makes the promise
reject with that error). -/
def load (L : Loader K V) [Inhabited K] (fetch : Fetch K V) (k : K) (s : Store) :
    JSVal V × Store × List (List K) :=
  let r := overridedBatchLoad L fetch [k] s
  (r.1.headD .undef, r.2.1, r.2.2)

/-- The `primeAsync` method: a non-error value is written to the store as
a successful fetch would write it; an error value performs no write and
resolves `false`. -/
def primeAsync (L : Loader K V) (k : K) (v : JSVal V) (s : Store) : Bool × Store :=
  match v with
  | .err _ => (false, s)
  | x => store L (redisKey L k) x s

/-- The `clearAsync` method: asserts a nonempty key list, then DELs each
key's store entry and sums the removal counts. -/
def clearAsync (L : Loader K V) (keys : List K) (s : Store) : Option (Nat × Store) :=
  if keys.isEmpty then none
  else
    some (keys.foldl
      (fun acc k =>
        let r := storeDel acc.2 (redisKey L k)
        (acc.1 + r.1, r.2))
      (0, s))

/-- The `exist` method: the atomic Lua probe returns `true` for a stored
non-sentinel value, the sentinel marker for a stored sentinel, and `nil`
for an absent key; in the first two cases the answer is
`result !== NOT_FOUND_STRING` with no fallback involved, otherwise a full
`load` decides, a not-found error resolving `false` and any other error
propagating. -/
def exist (L : Loader K V) [Inhabited K] (fetch : Fetch K V) (k : K) (s : Store) :
    JSVal Bool × Store × List (List K) :=
  match storeGet s (redisKey L k) with
  | some data => (.val (data != NOT_FOUND_STRING), s, [])
  | none =>
      match (load L fetch k s).1 with
      | .err .notFound => (.val false, (load L fetch k s).2.1, (load L fetch k s).2.2)
      | .err e => (.err e, (load L fetch k s).2.1, (load L fetch k s).2.2)
      | v => (.val (!v.isUndef), (load L fetch k s).2.1, (load L fetch k s).2.2)

/-- The `loadCached` method: run a full batch resolution over the keys,
re-read the store for each key, classify each strictly from the store
(sentinel, present, absent), and return the classification destructured
at the first position. -/
def loadCached (L : Loader K V) [Inhabited K] (fetch : Fetch K V)
    (keys : List K) (s : Store) : JSVal V × Store × List (List K) :=
  let r := overridedBatchLoad L fetch keys s
  let datas := keys.map (fun k => storeGet r.2.1 (redisKey L k))
  let mapped := (datas.zip keys).map (fun dk =>
    match dk.1 with
    | some data =>
        if data = NOT_FOUND_STRING then jsCoalesce (notFoundApply L dk.2) .null
        else L.options.deserialize dk.2 data
    | none => .null)
  (mapped.headD .undef, r.2.1, r.2.2)

/-- The classification `loadCached` applies to one key from the
post-resolution store: sentinel to the not-found handler's output or
null, a present value to its deserialization, absence to null. -/
def classifyCached (L : Loader K V) (s : Store) (k : K) : JSVal V :=
  match storeGet s (redisKey L k) with
  | some data =>
      if data = NOT_FOUND_STRING then jsCoalesce (notFoundApply L k) .null
      else L.options.deserialize k data
  | none => .null

/-- The suffix adjustment `this.name += options.redis.suffix ? \x60-${options.redis.suffix}\x60 : ''`:
a falsy (empty) suffix adds nothing. -/
def nameWithSuffix (name sfx : String) : String :=
  if sfx = "" then name else name ++ "-" ++ sfx

/-- The constructor's name registration: the suffix-adjusted name, the
duplicate assertion when checking is enabled, and insertion into the
process-wide used-name set. Returns the adjusted name and the updated
set, or the assertion message. -/
def constructLoader (checkForDuplicates : Bool) (usedNames : List String)
    (name sfx : String) : Except String (String × List String) :=
  if checkForDuplicates ∧ nameWithSuffix name sfx ∈ usedNames then
    .error ("RedisDataLoader name " ++ nameWithSuffix name sfx ++ " already used")
  else
    .ok (nameWithSuffix name sfx,
      if nameWithSuffix name sfx ∈ usedNames then usedNames
      else nameWithSuffix name sfx :: usedNames)

/-- Direct characterization, in terms of a single store lookup, of a
logical key whose store lookup leaves its resolution entry unresolved:
the key is absent from the store, or the stored sentinel meets no
configured (non-nullish) not-found handler, or the stored value
deserializes to `undefined`. -/
def storeMissB (L : Loader K V) (s : Store) (k : K) : Bool :=
  match storeGet s (redisKey L k) with
  | none => true
  | some data =>
      if data = NOT_FOUND_STRING then (jsCoalesce (notFoundApply L k) .undef).isUndef
      else ((L.options.deserialize k data).isUndef)

/-- The key list the claims say the fallback fetch must receive: one
representative logical key per distinct store key, in resolution-entry
order, restricted to the keys whose store lookup leaves them
unresolved. -/
def fallbackKeys (L : Loader K V) [Inhabited K] (s : Store) (keys : List K) : List K :=
  ((mkEntries L keys).map (fun e => e.key)).filter (storeMissB L s)

/-- What the write-back pass leaves in the store under one fetched
entry's own key, as a function of the fetched value and the previous
entry: a sentinel with the negative TTL, an untouched previous entry for
a non-not-found error, or the serialized value with the positive TTL. -/
def writeOneSpec (L : Loader K V) (e : Entry K V) (prev : Option (String × Nat)) :
    Option (String × Nat) :=
  match e.value with
  | .undef => some (NOT_FOUND_STRING, L.options.ttlNotFound.getD 30)
  | .err .notFound => some (NOT_FOUND_STRING, L.options.ttlNotFound.getD 30)
  | .err (.other _) => prev
  | v => some (L.options.serialize v, L.options.ttl)

/-- A concrete loader over string keys and natural-number values, used to
exercise the theorems on executable inputs: a not-found handler producing
the value 7, and a serializer/deserializer pair that round-trips the
value 5 through the string "S". -/
def exL : Loader String Nat :=
  { name := "L", keyStr := id,
    options :=
      { notFound := some (fun _ => .val 7)
        serialize := fun _ => "S"
        deserialize := fun _ d => if d = "S" then .val 5 else .null
        ttl := 100
        ttlNotFound := none
        cacheKeyFn := none } }

/-- A concrete loader whose key-normalization function collapses every
logical key to the same store key and whose not-found handler
distinguishes logical keys. -/
def cexL : Loader Nat Nat :=
  { name := "n", keyStr := fun n => toString n,
    options :=
      { notFound := some (fun k => .val k)
        serialize := fun _ => "s"
        deserialize := fun _ _ => .null
        ttl := 1
        ttlNotFound := none
        cacheKeyFn := some (fun _ => "x") } }

/-! Basic lemmas about the JavaScript value model. -/

theorem jsCoalesce_of_nullish {a b : JSVal V} (h : a.isNullish = true) :
    jsCoalesce a b = b := by
  cases a <;> simp_all [JSVal.isNullish, jsCoalesce]

theorem jsCoalesce_of_not_nullish {a b : JSVal V} (h : a.isNullish = false) :
    jsCoalesce a b = a := by
  cases a <;> simp_all [JSVal.isNullish, jsCoalesce]

theorem isNullish_of_isUndef {a : JSVal V} (h : a.isUndef = true) :
    a.isNullish = true := by
  cases a <;> simp_all [JSVal.isNullish, JSVal.isUndef]

/-! Basic lemmas about the store model. -/

theorem find?_filter_of_imp {p q : α → Bool} (l : List α)
    (h : ∀ x, p x = true → q x = true) :
    (l.filter q).find? p = l.find? p := by
  induction l with
  | nil => rfl
  | cons a l ih =>
      by_cases hq : q a = true
      · by_cases hp : p a = true
        · simp [List.filter, hq, List.find?, hp]
        · simp only [Bool.not_eq_true] at hp
          simp [List.filter, hq, List.find?, hp, ih]
      · have hp : p a = false := by
          by_contra hc
          simp only [Bool.not_eq_false] at hc
          exact hq (h a hc)
        simp only [Bool.not_eq_true] at hq
        simp [List.filter, hq, List.find?, hp, ih]

theorem storeGetEntry_set_self (s : Store) (k v : String) (ttl : Nat) :
    storeGetEntry (storeSet s k v ttl) k = some (v, ttl) := by
  simp [storeGetEntry, storeSet, List.find?]

theorem storeGetEntry_set_ne (s : Store) {k k' : String} (v : String) (ttl : Nat)
    (h : k' ≠ k) : storeGetEntry (storeSet s k v ttl) k' = storeGetEntry s k' := by
  unfold storeGetEntry storeSet
  have hk : ((k, v, ttl).1 == k') = false := by
    simp [Ne.symm h]
  rw [List.find?]
  rw [hk]
  congr 1
  exact find?_filter_of_imp s (fun x hx => by
    simp only [beq_iff_eq] at hx
    simp only [bne_iff_ne, ne_eq, hx]
    exact h)

theorem storeGet_set_self (s : Store) (k v : String) (ttl : Nat) :
    storeGet (storeSet s k v ttl) k = some v := by
  simp [storeGet, storeGetEntry_set_self]

theorem storeGet_set_ne (s : Store) {k k' : String} (v : String) (ttl : Nat)
    (h : k' ≠ k) : storeGet (storeSet s k v ttl) k' = storeGet s k' := by
  simp [storeGet, storeGetEntry_set_ne s v ttl h]

/-! Lemmas about order-preserving deduplication. -/

theorem mem_dedupFirst_go (l : List String) (seen : List String) (x : String) :
    x ∈ dedupFirst.go l seen ↔ x ∈ l ∧ x ∉ seen := by
  induction l generalizing seen with
  | nil => simp [dedupFirst.go]
  | cons a l ih =>
      by_cases ha : a ∈ seen
      · rw [dedupFirst.go, if_pos ha, ih]
        simp only [List.mem_cons]
        constructor
        · rintro ⟨hl, hs⟩
          exact ⟨Or.inr hl, hs⟩
        · rintro ⟨rfl | hl, hs⟩
          · exact absurd ha hs
          · exact ⟨hl, hs⟩
      · rw [dedupFirst.go, if_neg ha]
        simp only [List.mem_cons, ih, not_or]
        constructor
        · rintro (rfl | ⟨hl, _, hs⟩)
          · exact ⟨Or.inl rfl, ha⟩
          · exact ⟨Or.inr hl, hs⟩
        · rintro ⟨rfl | hl, hs⟩
          · exact Or.inl rfl
          · by_cases hxa : x = a
            · exact Or.inl hxa
            · exact Or.inr ⟨hl, hxa, hs⟩

theorem mem_dedupFirst (l : List String) (x : String) :
    x ∈ dedupFirst l ↔ x ∈ l := by
  simp [dedupFirst, mem_dedupFirst_go]

theorem nodup_dedupFirst_go (l : List String) (seen : List String) :
    (dedupFirst.go l seen).Nodup := by
  induction l generalizing seen with
  | nil => simp [dedupFirst.go]
  | cons a l ih =>
      by_cases ha : a ∈ seen
      · simpa [dedupFirst.go, if_pos ha] using ih seen
      · simp only [dedupFirst.go, if_neg ha]
        refine List.Nodup.cons ?_ (ih (a :: seen))
        intro hmem
        rcases (mem_dedupFirst_go l (a :: seen) a).mp hmem with ⟨_, hs⟩
        exact hs (List.mem_cons_self a seen)

theorem nodup_dedupFirst (l : List String) : (dedupFirst l).Nodup :=
  nodup_dedupFirst_go l []

/-! Lemmas about the resolution entries. -/

theorem exists_find?_eq_some {p : α → Bool} {l : List α} (h : ∃ x ∈ l, p x = true) :
    ∃ y, l.find? p = some y ∧ p y = true := by
  induction l with
  | nil => simp at h
  | cons a l ih =>
      by_cases hp : p a = true
      · exact ⟨a, by simp [List.find?, hp], hp⟩
      · simp only [Bool.not_eq_true] at hp
        rcases h with ⟨x, hx, hpx⟩
        cases hx with
        | head => rw [hp] at hpx; exact absurd hpx (by simp)
        | tail _ hx =>
            rcases ih ⟨x, hx, hpx⟩ with ⟨y, hy, hpy⟩
            exact ⟨y, by simp [List.find?, hp, hy], hpy⟩

theorem mkEntries_map_redisKey (L : Loader K V) [Inhabited K] (keys : List K) :
    (mkEntries L keys).map (fun e => e.redisKey) = dedupFirst (keys.map (redisKey L)) := by
  unfold mkEntries
  rw [List.map_map]
  exact List.map_id'' (fun _ => rfl) _

theorem mkEntries_nodup (L : Loader K V) [Inhabited K] (keys : List K) :
    ((mkEntries L keys).map (fun e => e.redisKey)).Nodup := by
  rw [mkEntries_map_redisKey]
  exact nodup_dedupFirst _

theorem mem_mkEntries (L : Loader K V) [Inhabited K] {keys : List K} {e : Entry K V}
    (h : e ∈ mkEntries L keys) :
    e.value = .undef ∧ redisKey L e.key = e.redisKey ∧
      e.redisKey ∈ keys.map (redisKey L) := by
  unfold mkEntries at h
  rcases List.mem_map.mp h with ⟨rk, hrk, rfl⟩
  have hmem : rk ∈ keys.map (redisKey L) := (mem_dedupFirst _ _).mp hrk
  rcases List.mem_map.mp hmem with ⟨k, hk, rfl⟩
  have hfind : ∃ y, keys.find? (fun o => redisKey L o == redisKey L k) = some y ∧
      (redisKey L y == redisKey L k) = true :=
    exists_find?_eq_some ⟨k, hk, by simp⟩
  rcases hfind with ⟨y, hy, hpy⟩
  refine ⟨rfl, ?_, hmem⟩
  simp only [hy, Option.getD_some]
  exact beq_iff_eq.mp hpy

theorem redisKey_mem_entries (L : Loader K V) [Inhabited K] {keys : List K} {k : K}
    (h : k ∈ keys) :
    redisKey L k ∈ (mkEntries L keys).map (fun e => e.redisKey) := by
  rw [mkEntries_map_redisKey, mem_dedupFirst]
  exact List.mem_map.mpr ⟨k, h, rfl⟩

theorem readEntry_redisKey (L : Loader K V) (s : Store) (e : Entry K V) :
    (readEntry L s e).redisKey = e.redisKey := by
  unfold readEntry
  cases storeGet s e.redisKey with
  | none => rfl
  | some data => by_cases h : data = NOT_FOUND_STRING <;> simp [h]

theorem readEntry_key (L : Loader K V) (s : Store) (e : Entry K V) :
    (readEntry L s e).key = e.key := by
  unfold readEntry
  cases storeGet s e.redisKey with
  | none => rfl
  | some data => by_cases h : data = NOT_FOUND_STRING <;> simp [h]

theorem readEntry_isUndef (L : Loader K V) (s : Store) {e : Entry K V}
    (hv : e.value = .undef) (hk : redisKey L e.key = e.redisKey) :
    ((readEntry L s e).value).isUndef = storeMissB L s e.key := by
  unfold readEntry storeMissB
  rw [hk]
  cases storeGet s e.redisKey with
  | none => simp [hv, JSVal.isUndef]
  | some data => by_cases h : data = NOT_FOUND_STRING <;> simp [h]

theorem readEntries_map_redisKey (L : Loader K V) [Inhabited K] (s : Store)
    (keys : List K) :
    (readEntries L s keys).map (fun e => e.redisKey) =
      (mkEntries L keys).map (fun e => e.redisKey) := by
  unfold readEntries
  rw [List.map_map]
  exact List.map_congr_left (fun e _ => readEntry_redisKey L s e)

theorem readEntries_nodup (L : Loader K V) [Inhabited K] (s : Store) (keys : List K) :
    ((readEntries L s keys).map (fun e => e.redisKey)).Nodup := by
  rw [readEntries_map_redisKey]
  exact mkEntries_nodup L keys

theorem missingEntries_sub_nodup (L : Loader K V) [Inhabited K] (s : Store)
    (keys : List K) :
    ((missingEntries L s keys).map (fun e => e.redisKey)).Nodup := by
  unfold missingEntries
  exact ((List.filter_sublist _).map _).nodup (readEntries_nodup L s keys)

theorem mem_missingEntries_isUndef (L : Loader K V) [Inhabited K] (s : Store)
    {keys : List K} {e : Entry K V} (h : e ∈ missingEntries L s keys) :
    e.value.isUndef = true :=
  (List.mem_filter.mp h).2

/-! Lemmas about positioning of fetch results and index arithmetic. -/

theorem headD_eq_getD_zero (l : List α) (d : α) : l.headD d = l.getD 0 d := by
  cases l <;> rfl

theorem tail_getD (l : List α) (i : Nat) (d : α) :
    l.tail.getD i d = l.getD (i + 1) d := by
  cases l <;> rfl

theorem applyFetch_map_redisKey (es : List (Entry K V)) (rs : List (JSVal V)) :
    (applyFetch es rs).map (fun e => e.redisKey) = es.map (fun e => e.redisKey) := by
  induction es generalizing rs with
  | nil => rfl
  | cons a es ih =>
      by_cases ha : a.value.isUndef = true
      · simp only [applyFetch, if_pos ha, List.map_cons, ih]
      · simp only [Bool.not_eq_true] at ha
        simp only [applyFetch, ha, Bool.false_eq_true, if_false, List.map_cons, ih]

theorem applyFetch_getElem?_undef {es : List (Entry K V)}
    (h : ∀ e ∈ es, e.value.isUndef = true) (rs : List (JSVal V)) (i : Nat) :
    (applyFetch es rs)[i]? =
      (es[i]?).map (fun e => { e with value := rs.getD i .undef }) := by
  induction es generalizing rs i with
  | nil => simp [applyFetch]
  | cons a es ih =>
      have ha : a.value.isUndef = true := h a (List.mem_cons_self a es)
      simp only [applyFetch, if_pos ha]
      cases i with
      | zero => cases rs <;> simp
      | succ j =>
          simp only [List.getElem?_cons_succ]
          rw [ih (fun e he => h e (List.mem_cons_of_mem a he)) rs.tail j]
          simp [tail_getD]

theorem find?_entry_key_nodup {es : List (Entry K V)}
    (hnd : (es.map (fun e => e.redisKey)).Nodup) {e : Entry K V} (he : e ∈ es) :
    es.find? (fun x => x.redisKey == e.redisKey) = some e := by
  induction es with
  | nil => simp at he
  | cons a es ih =>
      rcases List.mem_cons.mp he with rfl | he'
      · simp [List.find?]
      · have hne : a.redisKey ≠ e.redisKey := by
          intro hcontra
          have : a.redisKey ∈ es.map (fun x => x.redisKey) :=
            hcontra ▸ List.mem_map.mpr ⟨e, he', rfl⟩
          exact (List.nodup_cons.mp hnd).1 this
        have hpa : (a.redisKey == e.redisKey) = false := by
          simp [hne]
        simp only [List.find?, hpa]
        exact ih (List.nodup_cons.mp hnd).2 he'

theorem applyFetch_find?_resolved {es : List (Entry K V)} (rs : List (JSVal V))
    (hnd : (es.map (fun e => e.redisKey)).Nodup) {e : Entry K V} (he : e ∈ es)
    (hv : e.value.isUndef = false) :
    (applyFetch es rs).find? (fun x => x.redisKey == e.redisKey) = some e := by
  induction es generalizing rs with
  | nil => simp at he
  | cons a es ih =>
      rcases List.mem_cons.mp he with rfl | he'
      · simp only [applyFetch, hv, Bool.false_eq_true, if_false, List.find?, beq_self_eq_true]
      · have hne : (a.redisKey == e.redisKey) = false := by
          have : a.redisKey ≠ e.redisKey := by
            intro hcontra
            have : a.redisKey ∈ es.map (fun x => x.redisKey) :=
              hcontra ▸ List.mem_map.mpr ⟨e, he', rfl⟩
            exact (List.nodup_cons.mp hnd).1 this
          simp [this]
        by_cases ha : a.value.isUndef = true
        · simp only [applyFetch, if_pos ha, List.find?, hne]
          exact ih rs.tail (List.nodup_cons.mp hnd).2 he'
        · simp only [Bool.not_eq_true] at ha
          simp only [applyFetch, ha, Bool.false_eq_true, if_false, List.find?, hne]
          exact ih rs (List.nodup_cons.mp hnd).2 he'

theorem applyFetch_find?_missing {es : List (Entry K V)} (rs : List (JSVal V))
    (hnd : (es.map (fun e => e.redisKey)).Nodup) {i : Nat} {m : Entry K V}
    (hm : (es.filter (fun e => e.value.isUndef))[i]? = some m) :
    (applyFetch es rs).find? (fun x => x.redisKey == m.redisKey) =
      some { m with value := rs.getD i .undef } := by
  induction es generalizing rs i with
  | nil => simp at hm
  | cons a es ih =>
      by_cases ha : a.value.isUndef = true
      · rw [List.filter_cons_of_pos (p := fun e : Entry K V => e.value.isUndef) ha] at hm
        cases i with
        | zero =>
            simp only [List.getElem?_cons_zero, Option.some_inj] at hm
            subst hm
            simp only [applyFetch, if_pos ha, List.find?, beq_self_eq_true,
              headD_eq_getD_zero]
        | succ j =>
            simp only [List.getElem?_cons_succ] at hm
            have hmem : m ∈ es := List.mem_of_mem_filter (List.getElem?_mem hm)
            have hne : (a.redisKey == m.redisKey) = false := by
              have : a.redisKey ≠ m.redisKey := by
                intro hcontra
                have : a.redisKey ∈ es.map (fun x => x.redisKey) :=
                  hcontra ▸ List.mem_map.mpr ⟨m, hmem, rfl⟩
                exact (List.nodup_cons.mp hnd).1 this
              simp [this]
            simp only [applyFetch, if_pos ha, List.find?, hne]
            rw [ih rs.tail (List.nodup_cons.mp hnd).2 hm]
            simp [tail_getD]
      · simp only [Bool.not_eq_true] at ha
        rw [List.filter_cons_of_neg (by simp [ha])] at hm
        have hmem : m ∈ es := List.mem_of_mem_filter (List.getElem?_mem hm)
        have hne : (a.redisKey == m.redisKey) = false := by
          have : a.redisKey ≠ m.redisKey := by
            intro hcontra
            have : a.redisKey ∈ es.map (fun x => x.redisKey) :=
              hcontra ▸ List.mem_map.mpr ⟨m, hmem, rfl⟩
            exact (List.nodup_cons.mp hnd).1 this
          simp [this]
        simp only [applyFetch, ha, Bool.false_eq_true, if_false, List.find?, hne]
        exact ih rs (List.nodup_cons.mp hnd).2 hm

/-! Lemmas about the write-back pass. -/

theorem writeOne_getEntry_ne (L : Loader K V) (e : Entry K V) (s : Store)
    {rk : String} (h : rk ≠ e.redisKey) :
    storeGetEntry (writeOne L e s) rk = storeGetEntry s rk := by
  unfold writeOne
  cases e.value with
  | undef => exact storeGetEntry_set_ne _ _ _ h
  | null => exact storeGetEntry_set_ne _ _ _ h
  | val v => exact storeGetEntry_set_ne _ _ _ h
  | err er =>
      cases er with
      | notFound => exact storeGetEntry_set_ne _ _ _ h
      | other m => rfl

theorem writeOne_getEntry_self (L : Loader K V) (e : Entry K V) (s : Store) :
    storeGetEntry (writeOne L e s) e.redisKey =
      writeOneSpec L e (storeGetEntry s e.redisKey) := by
  unfold writeOne writeOneSpec
  cases e.value with
  | undef => exact storeGetEntry_set_self _ _ _ _
  | null => exact storeGetEntry_set_self _ _ _ _
  | val v => exact storeGetEntry_set_self _ _ _ _
  | err er =>
      cases er with
      | notFound => exact storeGetEntry_set_self _ _ _ _
      | other m => rfl

theorem writeFold_cons (L : Loader K V) (a : Entry K V) (ms : List (Entry K V))
    (s : Store) : writeFold L (a :: ms) s = writeFold L ms (writeOne L a s) := rfl

theorem writeFold_getEntry_notMem (L : Loader K V) {ms : List (Entry K V)}
    {rk : String} (h : rk ∉ ms.map (fun e => e.redisKey)) (s : Store) :
    storeGetEntry (writeFold L ms s) rk = storeGetEntry s rk := by
  induction ms generalizing s with
  | nil => rfl
  | cons a ms ih =>
      simp only [List.map_cons, List.mem_cons, not_or] at h
      rw [writeFold_cons, ih h.2, writeOne_getEntry_ne L a s h.1]

theorem writeFold_getEntry_at (L : Loader K V) {ms : List (Entry K V)}
    (hnd : (ms.map (fun e => e.redisKey)).Nodup) {i : Nat} {e : Entry K V}
    (hi : ms[i]? = some e) (s : Store) :
    storeGetEntry (writeFold L ms s) e.redisKey =
      writeOneSpec L e (storeGetEntry s e.redisKey) := by
  induction ms generalizing s i with
  | nil => simp at hi
  | cons a ms ih =>
      cases i with
      | zero =>
          simp only [List.getElem?_cons_zero, Option.some_inj] at hi
          subst hi
          rw [writeFold_cons,
            writeFold_getEntry_notMem L (List.nodup_cons.mp hnd).1 _,
            writeOne_getEntry_self]
      | succ j =>
          simp only [List.getElem?_cons_succ] at hi
          have hmem : e ∈ ms := List.getElem?_mem hi
          have hne : e.redisKey ≠ a.redisKey := by
            intro hcontra
            apply (List.nodup_cons.mp hnd).1
            show a.redisKey ∈ List.map (fun e => e.redisKey) ms
            rw [← hcontra]
            exact List.mem_map.mpr ⟨e, hmem, rfl⟩
          rw [writeFold_cons, ih (List.nodup_cons.mp hnd).2 hi,
            writeOne_getEntry_ne L a s hne]

theorem writeOne_congr (L : Loader K V) {s₁ s₂ : Store} {K₀ : String}
    (hs : ∀ rk, rk ≠ K₀ → storeGetEntry s₁ rk = storeGetEntry s₂ rk)
    {a : Entry K V} (ha : a.redisKey ≠ K₀) :
    ∀ rk, rk ≠ K₀ → storeGetEntry (writeOne L a s₁) rk = storeGetEntry (writeOne L a s₂) rk := by
  intro rk hrk
  by_cases hra : rk = a.redisKey
  · subst hra
    rw [writeOne_getEntry_self, writeOne_getEntry_self, hs _ ha]
  · rw [writeOne_getEntry_ne L a s₁ hra, writeOne_getEntry_ne L a s₂ hra]
    exact hs _ hrk

theorem writeFold_congr_ne (L : Loader K V) {K₀ : String}
    {ms ms' : List (Entry K V)}
    (h : List.Forall₂ (fun e e' =>
      e.redisKey = e'.redisKey ∧ (e.redisKey ≠ K₀ → e = e')) ms ms') :
    ∀ {s₁ s₂ : Store},
      (∀ rk, rk ≠ K₀ → storeGetEntry s₁ rk = storeGetEntry s₂ rk) →
      ∀ rk, rk ≠ K₀ →
        storeGetEntry (writeFold L ms s₁) rk = storeGetEntry (writeFold L ms' s₂) rk := by
  induction h with
  | nil => exact fun hs rk hrk => hs rk hrk
  | cons hab hl ih =>
      rename_i a a' ms ms'
      intro s₁ s₂ hs rk hrk
      rw [writeFold_cons, writeFold_cons]
      refine ih ?_ rk hrk
      by_cases haK : a.redisKey = K₀
      · intro rk' hrk'
        rw [writeOne_getEntry_ne L a s₁ (haK ▸ hrk'),
          writeOne_getEntry_ne L a' s₂ ((hab.1 ▸ haK) ▸ hrk')]
        exact hs rk' hrk'
      · rw [← hab.2 haK]
        exact writeOne_congr L hs haK

/-! Lemmas about the assembled resolution pass. -/

theorem isUndef_eq_false_of_isNullish {a : JSVal V} (h : a.isNullish = false) :
    a.isUndef = false := by
  cases a <;> simp_all [JSVal.isNullish, JSVal.isUndef]

theorem mkEntries_singleton (L : Loader K V) [Inhabited K] (k : K) :
    mkEntries L [k] = [⟨redisKey L k, k, .undef⟩] := by
  simp [mkEntries, dedupFirst, dedupFirst.go, List.find?]

theorem resolvePhase_of_empty (L : Loader K V) [Inhabited K] (f : Fetch K V)
    (keys : List K) (s : Store) (h : missingEntries L s keys = []) :
    resolvePhase L f keys s = (readEntries L s keys, s, []) := by
  unfold resolvePhase
  simp [h]

theorem resolvePhase_of_nonempty (L : Loader K V) [Inhabited K] (f : Fetch K V)
    (keys : List K) (s : Store) (h : missingEntries L s keys ≠ []) :
    resolvePhase L f keys s =
      (applyFetch (readEntries L s keys) (f (missingKeys L s keys)),
       writeFold L (applyFetch (missingEntries L s keys) (f (missingKeys L s keys))) s,
       [missingKeys L s keys]) := by
  unfold resolvePhase
  rw [if_neg (fun hc => h (List.isEmpty_iff.mp hc))]

theorem overridedBatchLoad_getElem? (L : Loader K V) [Inhabited K] (f : Fetch K V)
    (keys : List K) (s : Store) (p : Nat) :
    (overridedBatchLoad L f keys s).1[p]? =
      (keys[p]?).map (lookupResult L (resolvePhase L f keys s).1) := by
  unfold overridedBatchLoad finalMap
  exact List.getElem?_map _ _ _

theorem overridedBatchLoad_length (L : Loader K V) [Inhabited K] (f : Fetch K V)
    (keys : List K) (s : Store) :
    (overridedBatchLoad L f keys s).1.length = keys.length := by
  unfold overridedBatchLoad finalMap
  exact List.length_map _ _

theorem lookupResult_congr (L : Loader K V) (E : List (Entry K V)) {k₁ k₂ : K}
    (h₁ : redisKey L k₁ = redisKey L k₂)
    (h₂ : notFoundApply L k₁ = notFoundApply L k₂) :
    lookupResult L E k₁ = lookupResult L E k₂ := by
  unfold lookupResult
  rw [h₁, h₂]

theorem missingKeys_eq_fallbackKeys (L : Loader K V) [Inhabited K] (s : Store)
    (keys : List K) : missingKeys L s keys = fallbackKeys L s keys := by
  unfold missingKeys missingEntries readEntries fallbackKeys
  rw [List.filter_map, List.map_map, List.filter_map]
  have hf : List.filter ((fun e => e.value.isUndef) ∘ readEntry L s) (mkEntries L keys)
      = List.filter (storeMissB L s ∘ fun e => e.key) (mkEntries L keys) := by
    apply List.filter_congr
    intro e he
    rcases mem_mkEntries L he with ⟨hv, hk, _⟩
    show ((readEntry L s e).value).isUndef = storeMissB L s e.key
    exact readEntry_isUndef L s hv hk
  rw [hf]
  apply List.map_congr_left
  intro e he
  exact readEntry_key L s e

theorem load_store_resolved (L : Loader K V) [Inhabited K] (f : Fetch K V)
    (k : K) (s : Store) (d : String)
    (hd : storeGet s (redisKey L k) = some d)
    (hw : (if d = NOT_FOUND_STRING then jsCoalesce (notFoundApply L k) .undef
           else L.options.deserialize k d).isNullish = false) :
    load L f k s =
      ((if d = NOT_FOUND_STRING then jsCoalesce (notFoundApply L k) .undef
        else L.options.deserialize k d), s, []) := by
  have hentry : readEntries L s [k] =
      [⟨redisKey L k, k,
        if d = NOT_FOUND_STRING then jsCoalesce (notFoundApply L k) .undef
        else L.options.deserialize k d⟩] := by
    rw [readEntries, mkEntries_singleton]
    simp only [List.map_cons, List.map_nil]
    congr 1
    unfold readEntry
    simp only
    rw [hd]
    by_cases hnfs : d = NOT_FOUND_STRING <;> simp [hnfs]
  have hmiss : missingEntries L s [k] = [] := by
    rw [missingEntries, hentry]
    simp [List.filter, isUndef_eq_false_of_isNullish hw]
  unfold load overridedBatchLoad
  rw [resolvePhase_of_empty L f [k] s hmiss]
  simp only
  rw [hentry]
  unfold finalMap lookupResult
  simp only [List.map_cons, List.map_nil, List.find?, beq_self_eq_true]
  simp [jsCoalesce_of_not_nullish hw]

/-! Lemmas about the clear pass. -/

theorem storeGet_cons (p : String × String × Nat) (t : Store) (k : String) :
    storeGet (p :: t) k = if p.1 == k then some p.2.1 else storeGet t k := by
  unfold storeGet storeGetEntry
  by_cases h : (p.1 == k) = true <;> simp [List.find?, h]

theorem storeGet_none_forall {s : Store} {k : String} (h : storeGet s k = none) :
    ∀ p ∈ s, p.1 ≠ k := by
  intro p hp
  unfold storeGet storeGetEntry at h
  rcases Option.map_eq_none'.mp h with hfind
  rcases Option.map_eq_none'.mp hfind with hfind'
  have := List.find?_eq_none.mp hfind' p hp
  simpa using this

theorem count_cons_present {rk : String} :
    ∀ {s : Store}, (s.map (fun p => p.1)).Nodup → (storeGet s rk).isSome = true →
    ∀ (rks : List String),
    (s.filter (fun p => decide (p.1 ∈ rk :: rks))).length
      = 1 + ((s.filter (fun p => p.1 != rk)).filter (fun p => decide (p.1 ∈ rks))).length := by
  intro s
  induction s with
  | nil => intro _ hk; simp [storeGet, storeGetEntry] at hk
  | cons p t ih =>
      intro hnd hk rks
      by_cases hp : p.1 = rk
      · have hndc : (p.1 :: t.map (fun q => q.1)).Nodup := hnd
        have hall : ∀ q ∈ t, q.1 ≠ rk := by
          intro q hq hcontra
          apply (List.nodup_cons.mp hndc).1
          show p.1 ∈ List.map (fun q => q.1) t
          rw [hp, ← hcontra]
          exact List.mem_map.mpr ⟨q, hq, rfl⟩
        have hL : List.filter (fun p => decide (p.1 ∈ rk :: rks)) (p :: t)
            = p :: t.filter (fun p => decide (p.1 ∈ rks)) := by
          rw [List.filter_cons_of_pos (by simp [hp])]
          congr 1
          apply List.filter_congr
          intro q hq
          simp [List.mem_cons, hall q hq]
        have hR : List.filter (fun p => p.1 != rk) (p :: t) = t := by
          rw [List.filter_cons_of_neg (by simp [hp])]
          exact List.filter_eq_self.mpr (fun q hq => by simp [hall q hq])
        rw [hL, hR]
        simp only [List.length_cons]
        omega
      · have hk' : (storeGet t rk).isSome = true := by
          rw [storeGet_cons] at hk
          simpa [show (p.1 == rk) = false by simp [hp]] using hk
        have hndc : (p.1 :: t.map (fun q => q.1)).Nodup := hnd
        have hnd' : (t.map (fun p => p.1)).Nodup := by
          have := (List.nodup_cons.mp hndc).2
          simpa using this
        by_cases hm : p.1 ∈ rks
        · have h1 : (decide (p.1 ∈ rk :: rks)) = true := by simp [List.mem_cons, hm]
          have hbne : (p.1 != rk) = true := by simp [hp]
          have hdm : (decide (p.1 ∈ rks)) = true := by simp [hm]
          simp only [List.filter_cons, h1, hbne, hdm, if_true, List.length_cons]
          rw [ih hnd' hk' rks]
          omega
        · have h1 : (decide (p.1 ∈ rk :: rks)) = false := by simp [List.mem_cons, hm, hp]
          have hbne : (p.1 != rk) = true := by simp [hp]
          have hdm : (decide (p.1 ∈ rks)) = false := by simp [hm]
          simp only [List.filter_cons, h1, hbne, hdm, if_true, Bool.false_eq_true, if_false]
          exact ih hnd' hk' rks

theorem clearFold_spec (L : Loader K V) :
    ∀ (keys : List K) (s : Store) (a : Nat), (s.map (fun p => p.1)).Nodup →
    keys.foldl (fun acc k =>
        let r := storeDel acc.2 (redisKey L k)
        (acc.1 + r.1, r.2)) (a, s)
      = (a + (s.filter (fun p => decide (p.1 ∈ keys.map (redisKey L)))).length,
         s.filter (fun p => !decide (p.1 ∈ keys.map (redisKey L)))) := by
  intro keys
  induction keys with
  | nil =>
      intro s a _
      simp
  | cons k keys ih =>
      intro s a hnd
      simp only [List.foldl_cons, List.map_cons]
      by_cases hsk : (storeGet s (redisKey L k)).isSome = true
      · have hdel : storeDel s (redisKey L k)
            = (1, s.filter (fun p => p.1 != redisKey L k)) := by
          unfold storeDel
          rw [if_pos hsk]
        rw [hdel]
        have hnd₁ : ((s.filter (fun p => p.1 != redisKey L k)).map (fun p => p.1)).Nodup :=
          ((List.filter_sublist s).map _).nodup hnd
        rw [ih _ _ hnd₁]
        have hcount := count_cons_present hnd hsk (keys.map (redisKey L))
        have hstore : (s.filter (fun p => p.1 != redisKey L k)).filter
              (fun p => !decide (p.1 ∈ keys.map (redisKey L)))
            = s.filter (fun p => !decide (p.1 ∈ redisKey L k :: keys.map (redisKey L))) := by
          rw [List.filter_filter]
          apply List.filter_congr
          intro q _
          by_cases h1 : q.1 = redisKey L k <;>
            by_cases h2 : q.1 ∈ keys.map (redisKey L) <;>
              simp [h1, h2, List.mem_cons]
        rw [hstore]
        refine Prod.ext ?_ rfl
        show a + 1 + _ = a + _
        rw [hcount]
        omega
      · have hnone : storeGet s (redisKey L k) = none := by
          cases h : storeGet s (redisKey L k) with
          | none => rfl
          | some d => rw [h] at hsk; simp at hsk
        have hall := storeGet_none_forall hnone
        have hdel : storeDel s (redisKey L k) = (0, s) := by
          unfold storeDel
          rw [if_neg (by simp [hnone])]
        rw [hdel]
        rw [ih _ _ hnd]
        have hsame : ∀ (q : String × String × Nat), q ∈ s →
            ((q.1 ∈ redisKey L k :: keys.map (redisKey L)) ↔ (q.1 ∈ keys.map (redisKey L))) := by
          intro q hq
          simp [List.mem_cons, hall q hq]
        have h1 : s.filter (fun p => decide (p.1 ∈ redisKey L k :: keys.map (redisKey L)))
            = s.filter (fun p => decide (p.1 ∈ keys.map (redisKey L))) :=
          List.filter_congr (fun q hq => by simp [hsame q hq])
        have h2 : s.filter (fun p => !decide (p.1 ∈ redisKey L k :: keys.map (redisKey L)))
            = s.filter (fun p => !decide (p.1 ∈ keys.map (redisKey L))) :=
          List.filter_congr (fun q hq => by simp [hsame q hq])
        rw [h1, h2]
        simp

/-! Remaining shared helper lemmas. -/

theorem mem_readEntries_key (L : Loader K V) [Inhabited K] (s : Store)
    {keys : List K} {e : Entry K V} (h : e ∈ readEntries L s keys) :
    redisKey L e.key = e.redisKey := by
  rcases List.mem_map.mp h with ⟨e₀, he₀, rfl⟩
  rw [readEntry_key, readEntry_redisKey]
  exact (mem_mkEntries L he₀).2.1

theorem applyFetch_length (es : List (Entry K V)) (rs : List (JSVal V)) :
    (applyFetch es rs).length = es.length := by
  have h := congrArg List.length (applyFetch_map_redisKey es rs)
  simpa using h

theorem coalesce_chain_not_undef (a b : JSVal V) :
    (jsCoalesce a (jsCoalesce b .null)).isUndef = false := by
  cases a <;> cases b <;> rfl

theorem missingEntries_def (L : Loader K V) [Inhabited K] (s : Store) (keys : List K) :
    missingEntries L s keys = (readEntries L s keys).filter (fun e => e.value.isUndef) := rfl

/-! Claim theorems. -/

/-- C1: a single batch resolution invokes the external fallback fetch at
most once, and the key list it passes is exactly the distinct keys whose
store lookup left them unresolved — one representative logical key per
distinct store key, in resolution-entry order — with every key absent
from the store among them. -/
theorem claim_C1 (L : Loader K V) [Inhabited K] (f : Fetch K V) (keys : List K)
    (s : Store) :
    (resolvePhase L f keys s).2.2.length ≤ 1
    ∧ (resolvePhase L f keys s).2.2 =
        (if (fallbackKeys L s keys).isEmpty then [] else [fallbackKeys L s keys])
    ∧ ((fallbackKeys L s keys).map (redisKey L)).Nodup
    ∧ (∀ e ∈ mkEntries L keys, storeGet s e.redisKey = none →
        e.key ∈ fallbackKeys L s keys) := by
  have hmf := missingKeys_eq_fallbackKeys L s keys
  have h2 : (resolvePhase L f keys s).2.2 =
      (if (fallbackKeys L s keys).isEmpty then [] else [fallbackKeys L s keys]) := by
    by_cases h : missingEntries L s keys = []
    · rw [resolvePhase_of_empty L f keys s h]
      have hfb : fallbackKeys L s keys = [] := by
        rw [← hmf]
        unfold missingKeys
        rw [h]
        rfl
      rw [if_pos (List.isEmpty_iff.mpr hfb)]
    · rw [resolvePhase_of_nonempty L f keys s h]
      have hfb : fallbackKeys L s keys ≠ [] := by
        rw [← hmf]
        unfold missingKeys
        simp [h]
      rw [if_neg (fun hc => hfb (List.isEmpty_iff.mp hc)), hmf]
  refine ⟨?_, h2, ?_, ?_⟩
  · rw [h2]
    by_cases h : (fallbackKeys L s keys).isEmpty = true
    · rw [if_pos h]
      simp
    · rw [if_neg h]
      simp
  · have hrw : (fallbackKeys L s keys).map (redisKey L) =
        ((mkEntries L keys).filter (storeMissB L s ∘ fun e => e.key)).map
          (fun e => e.redisKey) := by
      unfold fallbackKeys
      rw [List.filter_map, List.map_map]
      apply List.map_congr_left
      intro e he
      exact (mem_mkEntries L (List.mem_of_mem_filter he)).2.1
    rw [hrw]
    exact ((List.filter_sublist _).map _).nodup (mkEntries_nodup L keys)
  · intro e he hnone
    unfold fallbackKeys
    apply List.mem_filter.mpr
    refine ⟨List.mem_map.mpr ⟨e, he, rfl⟩, ?_⟩
    unfold storeMissB
    rw [(mem_mkEntries L he).2.1, hnone]

/-- Witness for C1 at a concrete input: with duplicated input keys and an
empty store, the representative key of an absent store key is passed to
the fallback. -/
theorem claim_C1_witness : "a" ∈ fallbackKeys exL [] ["a", "b", "a"] := by
  have h := (claim_C1 exL (fun _ => []) ["a", "b", "a"] []).2.2.2
  exact h ⟨"L:a", "a", .undef⟩ (by decide) rfl

/-- Counterexample to C2 as stated: with a key-normalization function
collapsing the distinct logical keys 0 and 1 to one store key and a
not-found handler that distinguishes them, the two positions of one batch
receive different results although their store keys coincide. -/
theorem claim_C2_counterexample :
    redisKey cexL 0 = redisKey cexL 1
    ∧ (overridedBatchLoad cexL (fun _ => [JSVal.undef]) [0, 1] []).1[0]? ≠
        (overridedBatchLoad cexL (fun _ => [JSVal.undef]) [0, 1] []).1[1]? := by
  constructor
  · rfl
  · decide

/-- C2 (amended): a batch resolution returns exactly one result per input
position in input order, each position's result computed by keyed lookup
from its own key; two input positions holding keys that map to the same
store key and on which the configured not-found handler does not
discriminate (in particular, positions holding equal keys) receive
identical results. -/
theorem claim_C2 (L : Loader K V) [Inhabited K] (f : Fetch K V) (keys : List K)
    (s : Store) :
    (overridedBatchLoad L f keys s).1.length = keys.length
    ∧ (∀ p : Nat, (overridedBatchLoad L f keys s).1[p]? =
        (keys[p]?).map (lookupResult L (resolvePhase L f keys s).1))
    ∧ ∀ i j (hi : i < keys.length) (hj : j < keys.length),
        redisKey L (keys.get ⟨i, hi⟩) = redisKey L (keys.get ⟨j, hj⟩) →
        notFoundApply L (keys.get ⟨i, hi⟩) = notFoundApply L (keys.get ⟨j, hj⟩) →
        (overridedBatchLoad L f keys s).1[i]? = (overridedBatchLoad L f keys s).1[j]? := by
  refine ⟨overridedBatchLoad_length L f keys s, overridedBatchLoad_getElem? L f keys s, ?_⟩
  intro i j hi hj hk hn
  rw [overridedBatchLoad_getElem?, overridedBatchLoad_getElem?,
    List.getElem?_eq_getElem hi, List.getElem?_eq_getElem hj]
  exact congrArg some (lookupResult_congr L _ hk hn)

/-- Witness for C2 (amended) at a concrete input: duplicated keys in one
batch receive the same result. -/
theorem claim_C2_witness :
    (overridedBatchLoad exL (fun ks => ks.map (fun _ => JSVal.val 3)) ["a", "b", "a"] []).1[0]? =
      (overridedBatchLoad exL (fun ks => ks.map (fun _ => JSVal.val 3)) ["a", "b", "a"] []).1[2]? :=
  (claim_C2 exL (fun ks => ks.map (fun _ => JSVal.val 3)) ["a", "b", "a"] []).2.2
    0 2 (by decide) (by decide) rfl rfl

/-- C4: priming a non-error value writes it to the store exactly as a
successful fetch would (serialized, under the positive TTL), and a
subsequent load of the key returns that value without invoking the
fallback fetch, provided the caller's deserializer inverts the serializer
and the serialized form is not the sentinel; priming an error performs no
store write. -/
theorem claim_C4 (L : Loader K V) [Inhabited K] (f : Fetch K V) (k : K) (v : V)
    (s : Store)
    (hdeser : L.options.deserialize k (L.options.serialize (.val v)) = .val v)
    (hser : L.options.serialize (.val v) ≠ NOT_FOUND_STRING) :
    primeAsync L k (.val v) s =
        (true, storeSet s (redisKey L k) (L.options.serialize (.val v)) L.options.ttl)
    ∧ load L f k (primeAsync L k (.val v) s).2 =
        (.val v, (primeAsync L k (.val v) s).2, [])
    ∧ ∀ (e : Err) (s₀ : Store), primeAsync L k (.err e) s₀ = (false, s₀) := by
  refine ⟨rfl, ?_, fun e s₀ => rfl⟩
  have hget : storeGet (primeAsync L k (.val v) s).2 (redisKey L k) =
      some (L.options.serialize (.val v)) :=
    storeGet_set_self s (redisKey L k) (L.options.serialize (.val v)) L.options.ttl
  have h := load_store_resolved L f k (primeAsync L k (.val v) s).2
    (L.options.serialize (.val v)) hget
    (by rw [if_neg hser, hdeser]; rfl)
  rw [if_neg hser, hdeser] at h
  exact h

/-- Witness for C4 at a concrete input: priming 5 under key "a" then
loading "a" yields 5 with no fallback invocation, and priming an error
value leaves the store untouched. -/
theorem claim_C4_witness :
    load exL (fun _ => []) "a" (primeAsync exL "a" (.val 5) []).2 =
        (.val 5, (primeAsync exL "a" (.val 5) []).2, [])
    ∧ primeAsync exL "a" (.err (.other "boom")) [] = (false, []) :=
  ⟨(claim_C4 exL (fun _ => []) "a" 5 [] (by decide) (by decide)).2.1,
   (claim_C4 exL (fun _ => []) "a" 5 [] (by decide) (by decide)).2.2 (.other "boom") []⟩

/-- C6: the existence probe answers true for a stored non-sentinel value
and false for a stored sentinel, in both cases touching the store only;
for a key with no store entry it defers to a full load, a not-found error
resolving to false, any other error propagating, and a non-error load
answering whether the loaded value is defined. -/
theorem claim_C6 (L : Loader K V) [Inhabited K] (f : Fetch K V) (k : K) (s : Store) :
    (∀ data, storeGet s (redisKey L k) = some data → data ≠ NOT_FOUND_STRING →
        exist L f k s = (.val true, s, []))
    ∧ (storeGet s (redisKey L k) = some NOT_FOUND_STRING →
        exist L f k s = (.val false, s, []))
    ∧ (storeGet s (redisKey L k) = none →
        ((load L f k s).1 = .err .notFound →
            exist L f k s = (.val false, (load L f k s).2.1, (load L f k s).2.2))
        ∧ (∀ msg, (load L f k s).1 = .err (.other msg) →
            exist L f k s = (.err (.other msg), (load L f k s).2.1, (load L f k s).2.2))
        ∧ ((load L f k s).1.isErr = false →
            exist L f k s =
              (.val (!(load L f k s).1.isUndef), (load L f k s).2.1, (load L f k s).2.2))) := by
  refine ⟨?_, ?_, ?_⟩
  · intro data hdata hne
    unfold exist
    rw [hdata]
    show (JSVal.val (data != NOT_FOUND_STRING), s, ([] : List (List K))) =
      (.val true, s, [])
    have : (data != NOT_FOUND_STRING) = true := by simp [hne]
    rw [this]
  · intro hdata
    unfold exist
    rw [hdata]
    show (JSVal.val (NOT_FOUND_STRING != NOT_FOUND_STRING), s, ([] : List (List K))) =
      (.val false, s, [])
    have : (NOT_FOUND_STRING != NOT_FOUND_STRING) = false := by simp
    rw [this]
  · intro hnone
    refine ⟨?_, ?_, ?_⟩
    · intro h
      unfold exist
      rw [hnone, h]
    · intro msg h
      unfold exist
      rw [hnone, h]
    · intro h
      unfold exist
      rw [hnone]
      cases hr : (load L f k s).1 with
      | undef => rfl
      | null => rfl
      | val v => rfl
      | err e => rw [hr] at h; simp [JSVal.isErr] at h

/-- Witness for C6 at concrete inputs: a primed value answers true, a
stored sentinel answers false, and for an uncached key the probe follows
the load (here: the not-found handler makes the load defined, so true). -/
theorem claim_C6_witness :
    exist exL (fun _ => []) "a" [("L:a", "5", 100)] = (.val true, [("L:a", "5", 100)], [])
    ∧ exist exL (fun _ => []) "a" [("L:a", NOT_FOUND_STRING, 30)] =
        (.val false, [("L:a", NOT_FOUND_STRING, 30)], [])
    ∧ exist exL (fun _ => [JSVal.err (.other "boom")]) "a" [] =
        (.err (.other "boom"),
         (load exL (fun _ => [JSVal.err (.other "boom")]) "a" []).2.1,
         (load exL (fun _ => [JSVal.err (.other "boom")]) "a" []).2.2) :=
  ⟨(claim_C6 exL (fun _ => []) "a" [("L:a", "5", 100)]).1 "5" rfl (by decide),
   (claim_C6 exL (fun _ => []) "a" [("L:a", NOT_FOUND_STRING, 30)]).2.1 rfl,
   ((claim_C6 exL (fun _ => [JSVal.err (.other "boom")]) "a" []).2.2 rfl).2.1 "boom" (by decide)⟩

/-- C7: a cache-only read first runs the full batch resolution over all
given keys (so misses get populated in the store), then classifies each
key strictly from the post-resolution store — sentinel to the not-found
handler's output or null, a present value to its deserialization, absence
to null — and returns only the first key's classification. -/
theorem claim_C7 (L : Loader K V) [Inhabited K] (f : Fetch K V) (k : K)
    (ks : List K) (s : Store) :
    loadCached L f (k :: ks) s =
      (classifyCached L (resolvePhase L f (k :: ks) s).2.1 k,
       (resolvePhase L f (k :: ks) s).2.1,
       (resolvePhase L f (k :: ks) s).2.2) := by
  unfold loadCached classifyCached overridedBatchLoad
  simp only [List.map_cons, List.zip_cons_cons, List.headD_cons]

/-- C8: clearing with zero keys fails at call time; clearing with one or
more keys removes exactly the store entries under the given keys' store
keys and returns how many entries were actually removed (assuming the
store holds at most one entry per key). -/
theorem claim_C8 (L : Loader K V) (keys : List K) (s : Store) (hne : keys ≠ [])
    (hnd : (s.map (fun p => p.1)).Nodup) :
    clearAsync L [] s = none
    ∧ clearAsync L keys s =
        some ((s.filter (fun p => decide (p.1 ∈ keys.map (redisKey L)))).length,
              s.filter (fun p => !decide (p.1 ∈ keys.map (redisKey L)))) := by
  refine ⟨rfl, ?_⟩
  unfold clearAsync
  rw [if_neg (by simp [hne])]
  rw [clearFold_spec L keys s 0 hnd]
  simp

/-- Witness for C8 at a concrete input: clearing keys "a" (twice) and "c"
against a store holding "L:a" and "L:b" removes one entry and leaves the
other. -/
theorem claim_C8_witness :
    clearAsync exL ["a", "a", "c"] [("L:a", "5", 100), ("L:b", "6", 100)] =
      some (1, [("L:b", "6", 100)]) := by
  have h := (claim_C8 exL ["a", "a", "c"] [("L:a", "5", 100), ("L:b", "6", 100)]
    (by decide) (by decide)).2
  rw [h]
  rfl

/-- C9: constructing a loader whose suffix-adjusted name is already in the
process-wide name set fails with the duplicate-name assertion when the
duplicate check is enabled; with the check disabled (or a fresh name)
construction succeeds and registers the name. -/
theorem claim_C9 (usedNames : List String) (name sfx : String) :
    (nameWithSuffix name sfx ∈ usedNames →
        constructLoader true usedNames name sfx =
          .error ("RedisDataLoader name " ++ nameWithSuffix name sfx ++ " already used"))
    ∧ constructLoader false usedNames name sfx =
        .ok (nameWithSuffix name sfx,
          if nameWithSuffix name sfx ∈ usedNames then usedNames
          else nameWithSuffix name sfx :: usedNames)
    ∧ (nameWithSuffix name sfx ∉ usedNames →
        constructLoader true usedNames name sfx =
          .ok (nameWithSuffix name sfx, nameWithSuffix name sfx :: usedNames)) := by
  refine ⟨fun h => ?_, ?_, fun h => ?_⟩
  · unfold constructLoader
    rw [if_pos ⟨rfl, h⟩]
  · unfold constructLoader
    rw [if_neg (by simp)]
  · unfold constructLoader
    rw [if_neg (fun hc => h hc.2), if_neg h]

/-- Witness for C9 at concrete inputs: a clashing suffix-adjusted name is
rejected when checking is enabled and accepted when checking is
disabled. -/
theorem claim_C9_witness :
    constructLoader true ["A-x"] "A" "x" =
        .error ("RedisDataLoader name " ++ "A-x" ++ " already used")
    ∧ constructLoader false ["A-x"] "A" "x" = .ok ("A-x", ["A-x"]) := by
  have h := claim_C9 ["A-x"] "A" "x"
  exact ⟨h.1 (by decide), by rw [h.2.1]; rfl⟩

/-- C10: any input position whose resolution entry ends with a nullish
(null or undefined) value is answered with the configured not-found
handler's output when that output is itself non-nullish, and with null
otherwise; a batch resolution never returns undefined at any position. -/
theorem claim_C10 (L : Loader K V) [Inhabited K] (f : Fetch K V) (keys : List K)
    (s : Store) (p : Nat) (hp : p < keys.length) :
    ((((List.find? (fun (e : Entry K V) => e.redisKey == redisKey L (keys.get ⟨p, hp⟩))
            (resolvePhase L f keys s).1).map
          (fun (e : Entry K V) => e.value)).getD .undef).isNullish = true →
        (overridedBatchLoad L f keys s).1[p]? =
          some (jsCoalesce (notFoundApply L (keys.get ⟨p, hp⟩)) .null))
    ∧ ∀ r, (overridedBatchLoad L f keys s).1[p]? = some r → r.isUndef = false := by
  rw [overridedBatchLoad_getElem?, List.getElem?_eq_getElem hp]
  constructor
  · intro hnul
    refine congrArg some ?_
    show lookupResult L (resolvePhase L f keys s).1 (keys.get ⟨p, hp⟩) = _
    unfold lookupResult
    exact jsCoalesce_of_nullish hnul
  · intro r hr
    have : r = lookupResult L (resolvePhase L f keys s).1 (keys.get ⟨p, hp⟩) := by
      have := hr.symm
      simpa using this
    rw [this]
    unfold lookupResult
    exact coalesce_chain_not_undef _ _

/-- Witness for C10 at a concrete input: a miss whose fallback result is
undefined is answered with the not-found handler's value 7, which is not
undefined. -/
theorem claim_C10_witness :
    (overridedBatchLoad exL (fun _ => [JSVal.undef]) ["z"] []).1[0]? = some (.val 7)
    ∧ (JSVal.val 7).isUndef = false := by
  have h := claim_C10 exL (fun _ => [JSVal.undef]) ["z"] [] 0 (by decide)
  have h1 := h.1 (by decide)
  exact ⟨h1, h.2 _ h1⟩

/-- C3: when the fallback fetch answers a miss with undefined or a
not-found error, the sentinel is written to the store under that entry's
key with the negative-cache TTL (ttlNotFound, defaulting to 30), and a
subsequent load of that key against the updated store returns the
configured not-found handler's (non-nullish) output without invoking the
fallback fetch. -/
theorem claim_C3 (L : Loader K V) [Inhabited K] (f : Fetch K V) (keys : List K)
    (s : Store) (i : Nat) (m : Entry K V)
    (hm : (missingEntries L s keys)[i]? = some m)
    (hres : (f (missingKeys L s keys)).getD i .undef = .undef ∨
            (f (missingKeys L s keys)).getD i .undef = .err .notFound) :
    storeGetEntry (resolvePhase L f keys s).2.1 m.redisKey =
        some (NOT_FOUND_STRING, L.options.ttlNotFound.getD 30)
    ∧ ∀ (f' : Fetch K V) (nf : K → JSVal V),
        L.options.notFound = some nf → (nf m.key).isNullish = false →
        load L f' m.key (resolvePhase L f keys s).2.1 =
          (nf m.key, (resolvePhase L f keys s).2.1, []) := by
  have hne : missingEntries L s keys ≠ [] := by
    intro h
    rw [h] at hm
    simp at hm
  have hallU : ∀ e ∈ missingEntries L s keys, e.value.isUndef = true :=
    fun e he => mem_missingEntries_isUndef L s he
  have hndm : ((missingEntries L s keys).map (fun e => e.redisKey)).Nodup :=
    missingEntries_sub_nodup L s keys
  have hnda : ((applyFetch (missingEntries L s keys)
      (f (missingKeys L s keys))).map (fun e => e.redisKey)).Nodup := by
    rw [applyFetch_map_redisKey]
    exact hndm
  have hgetA : (applyFetch (missingEntries L s keys) (f (missingKeys L s keys)))[i]? =
      some { m with value := (f (missingKeys L s keys)).getD i .undef } := by
    rw [applyFetch_getElem?_undef hallU (f (missingKeys L s keys)) i, hm]
    rfl
  have hwf := writeFold_getEntry_at L hnda hgetA s
  have parta : storeGetEntry (resolvePhase L f keys s).2.1 m.redisKey =
      some (NOT_FOUND_STRING, L.options.ttlNotFound.getD 30) := by
    rw [resolvePhase_of_nonempty L f keys s hne]
    show storeGetEntry
      (writeFold L (applyFetch (missingEntries L s keys) (f (missingKeys L s keys))) s)
      m.redisKey = _
    rcases hres with h | h
    · rw [h] at hwf
      exact hwf
    · rw [h] at hwf
      exact hwf
  refine ⟨parta, ?_⟩
  intro f' nf hnf hnn
  have hkm : redisKey L m.key = m.redisKey :=
    mem_readEntries_key L s (List.mem_of_mem_filter (List.getElem?_mem hm))
  have hsg : storeGet (resolvePhase L f keys s).2.1 (redisKey L m.key) =
      some NOT_FOUND_STRING := by
    rw [hkm]
    unfold storeGet
    rw [parta]
    rfl
  have hwc : (if NOT_FOUND_STRING = NOT_FOUND_STRING
      then jsCoalesce (notFoundApply L m.key) .undef
      else L.options.deserialize m.key NOT_FOUND_STRING) = nf m.key := by
    rw [if_pos rfl]
    unfold notFoundApply
    rw [hnf]
    exact jsCoalesce_of_not_nullish hnn
  have h := load_store_resolved L f' m.key (resolvePhase L f keys s).2.1
    NOT_FOUND_STRING hsg (by rw [hwc]; exact hnn)
  rw [hwc] at h
  exact h

/-- Witness for C3 at a concrete input: a miss on key "a" answered with
undefined leaves the sentinel under "L:a" with TTL 30, after which a load
of "a" returns the handler's value 7 without any fallback call. -/
theorem claim_C3_witness :
    storeGetEntry (resolvePhase exL (fun _ => [JSVal.undef]) ["a"] []).2.1 "L:a" =
        some (NOT_FOUND_STRING, 30)
    ∧ load exL (fun _ => []) "a" (resolvePhase exL (fun _ => [JSVal.undef]) ["a"] []).2.1 =
        (.val 7, (resolvePhase exL (fun _ => [JSVal.undef]) ["a"] []).2.1, []) := by
  have h := claim_C3 exL (fun _ => [JSVal.undef]) ["a"] [] 0 ⟨"L:a", "a", .undef⟩
    (by decide) (Or.inl (by decide))
  exact ⟨h.1, h.2 (fun _ => []) (fun _ => .val 7) rfl (by decide)⟩

/-- C5: when the fallback fetch answers a miss with an error that is not a
not-found error, no store write happens under that entry's key, the error
is returned at exactly the input positions mapping to that store key, and
the outputs at all other positions as well as the store entries under all
other keys are unaffected by the choice of that error result. -/
theorem claim_C5 (L : Loader K V) [Inhabited K] (f : Fetch K V) (keys : List K)
    (s : Store) (i : Nat) (m : Entry K V) (msg : String)
    (hm : (missingEntries L s keys)[i]? = some m)
    (hres : (f (missingKeys L s keys)).getD i .undef = .err (.other msg)) :
    storeGetEntry (resolvePhase L f keys s).2.1 m.redisKey = storeGetEntry s m.redisKey
    ∧ (∀ p (hp : p < keys.length), redisKey L (keys.get ⟨p, hp⟩) = m.redisKey →
        (overridedBatchLoad L f keys s).1[p]? = some (.err (.other msg)))
    ∧ ∀ (f' : Fetch K V),
        (∀ j, j ≠ i → (f' (missingKeys L s keys)).getD j .undef
                    = (f (missingKeys L s keys)).getD j .undef) →
        (∀ p (hp : p < keys.length), redisKey L (keys.get ⟨p, hp⟩) ≠ m.redisKey →
            (overridedBatchLoad L f' keys s).1[p]? = (overridedBatchLoad L f keys s).1[p]?)
        ∧ ∀ rk, rk ≠ m.redisKey →
            storeGetEntry (resolvePhase L f' keys s).2.1 rk =
              storeGetEntry (resolvePhase L f keys s).2.1 rk := by
  have hne : missingEntries L s keys ≠ [] := by
    intro h
    rw [h] at hm
    simp at hm
  have hallU : ∀ e ∈ missingEntries L s keys, e.value.isUndef = true :=
    fun e he => mem_missingEntries_isUndef L s he
  have hndm : ((missingEntries L s keys).map (fun e => e.redisKey)).Nodup :=
    missingEntries_sub_nodup L s keys
  have hndE := readEntries_nodup L s keys
  have hgetA : (applyFetch (missingEntries L s keys) (f (missingKeys L s keys)))[i]? =
      some { m with value := .err (.other msg) } := by
    rw [applyFetch_getElem?_undef hallU (f (missingKeys L s keys)) i, hm, hres]
    rfl
  have hnda : ((applyFetch (missingEntries L s keys)
      (f (missingKeys L s keys))).map (fun e => e.redisKey)).Nodup := by
    rw [applyFetch_map_redisKey]
    exact hndm
  refine ⟨?_, ?_, ?_⟩
  · rw [resolvePhase_of_nonempty L f keys s hne]
    exact writeFold_getEntry_at L hnda hgetA s
  · intro p hp hpk
    rw [overridedBatchLoad_getElem?, List.getElem?_eq_getElem hp]
    refine congrArg some ?_
    show lookupResult L (resolvePhase L f keys s).1 (keys.get ⟨p, hp⟩) = _
    rw [resolvePhase_of_nonempty L f keys s hne]
    show lookupResult L
      (applyFetch (readEntries L s keys) (f (missingKeys L s keys)))
      (keys.get ⟨p, hp⟩) = _
    unfold lookupResult
    rw [hpk]
    rw [applyFetch_find?_missing (f (missingKeys L s keys)) hndE hm]
    show jsCoalesce ((f (missingKeys L s keys)).getD i .undef) _ = _
    rw [hres]
    rfl
  · intro f' hagree
    constructor
    · intro p hp hpk
      rw [overridedBatchLoad_getElem?, overridedBatchLoad_getElem?,
        List.getElem?_eq_getElem hp]
      refine congrArg some ?_
      show lookupResult L (resolvePhase L f' keys s).1 (keys.get ⟨p, hp⟩) =
        lookupResult L (resolvePhase L f keys s).1 (keys.get ⟨p, hp⟩)
      rw [resolvePhase_of_nonempty L f' keys s hne,
        resolvePhase_of_nonempty L f keys s hne]
      show lookupResult L
          (applyFetch (readEntries L s keys) (f' (missingKeys L s keys)))
          (keys.get ⟨p, hp⟩) =
        lookupResult L
          (applyFetch (readEntries L s keys) (f (missingKeys L s keys)))
          (keys.get ⟨p, hp⟩)
      unfold lookupResult
      have hmem : redisKey L (keys.get ⟨p, hp⟩) ∈
          (readEntries L s keys).map (fun e => e.redisKey) := by
        rw [readEntries_map_redisKey]
        exact redisKey_mem_entries L (List.get_mem keys p hp)
      rcases List.mem_map.mp hmem with ⟨e₁, he₁, hke⟩
      have hpk' : e₁.redisKey ≠ m.redisKey := by
        rw [hke]
        exact hpk
      rw [← hke]
      by_cases hu : e₁.value.isUndef = true
      · have hmm : e₁ ∈ missingEntries L s keys := List.mem_filter.mpr ⟨he₁, hu⟩
        rcases List.mem_iff_get.mp hmm with ⟨⟨j, hj⟩, hgetj⟩
        have hmj : (missingEntries L s keys)[j]? = some e₁ := by
          rw [List.getElem?_eq_getElem hj]
          exact congrArg some hgetj
        have hji : j ≠ i := by
          intro hcontra
          subst hcontra
          have hme : some e₁ = some m := hmj.symm.trans hm
          have : e₁ = m := Option.some_inj.mp hme
          exact hpk' (congrArg Entry.redisKey this)
        rw [applyFetch_find?_missing (f' (missingKeys L s keys)) hndE hmj,
          applyFetch_find?_missing (f (missingKeys L s keys)) hndE hmj,
          hagree j hji]
      · have hu' : e₁.value.isUndef = false := by simpa using hu
        rw [applyFetch_find?_resolved (f' (missingKeys L s keys)) hndE he₁ hu',
          applyFetch_find?_resolved (f (missingKeys L s keys)) hndE he₁ hu']
    · intro rk hrk
      rw [resolvePhase_of_nonempty L f' keys s hne,
        resolvePhase_of_nonempty L f keys s hne]
      show storeGetEntry
          (writeFold L (applyFetch (missingEntries L s keys)
            (f' (missingKeys L s keys))) s) rk =
        storeGetEntry
          (writeFold L (applyFetch (missingEntries L s keys)
            (f (missingKeys L s keys))) s) rk
      refine writeFold_congr_ne L ?_ (fun rk' hrk' => rfl) rk hrk
      refine List.forall₂_iff_get.mpr ⟨by rw [applyFetch_length, applyFetch_length], ?_⟩
      intro jj h₁ h₂
      have hjjm : jj < (missingEntries L s keys).length := by
        rwa [applyFetch_length] at h₁
      have hg0 : (missingEntries L s keys)[jj]? =
          some ((missingEntries L s keys).get ⟨jj, hjjm⟩) :=
        List.getElem?_eq_getElem hjjm
      have hg1 : (applyFetch (missingEntries L s keys) (f' (missingKeys L s keys)))[jj]? =
          some { (missingEntries L s keys).get ⟨jj, hjjm⟩ with
                 value := (f' (missingKeys L s keys)).getD jj .undef } := by
        rw [applyFetch_getElem?_undef hallU (f' (missingKeys L s keys)) jj, hg0]
        rfl
      have hg2 : (applyFetch (missingEntries L s keys) (f (missingKeys L s keys)))[jj]? =
          some { (missingEntries L s keys).get ⟨jj, hjjm⟩ with
                 value := (f (missingKeys L s keys)).getD jj .undef } := by
        rw [applyFetch_getElem?_undef hallU (f (missingKeys L s keys)) jj, hg0]
        rfl
      have he1 : (applyFetch (missingEntries L s keys) (f' (missingKeys L s keys))).get ⟨jj, h₁⟩ =
          { (missingEntries L s keys).get ⟨jj, hjjm⟩ with
            value := (f' (missingKeys L s keys)).getD jj .undef } := by
        have := (List.getElem?_eq_getElem h₁).symm.trans hg1
        exact Option.some_inj.mp this
      have he2 : (applyFetch (missingEntries L s keys) (f (missingKeys L s keys))).get ⟨jj, h₂⟩ =
          { (missingEntries L s keys).get ⟨jj, hjjm⟩ with
            value := (f (missingKeys L s keys)).getD jj .undef } := by
        have := (List.getElem?_eq_getElem h₂).symm.trans hg2
        exact Option.some_inj.mp this
      rw [he1, he2]
      refine ⟨rfl, ?_⟩
      intro hne'
      have hji : jj ≠ i := by
        intro hcontra
        subst hcontra
        have hme : some ((missingEntries L s keys).get ⟨jj, hjjm⟩) = some m :=
          hg0.symm.trans hm
        have heq : (missingEntries L s keys).get ⟨jj, hjjm⟩ = m :=
          Option.some_inj.mp hme
        apply hne'
        show ({ (missingEntries L s keys).get ⟨jj, hjjm⟩ with
          value := (f' (missingKeys L s keys)).getD jj .undef }).redisKey = m.redisKey
        rw [← heq]
      rw [hagree jj hji]

/-- Witness for C5 at a concrete input: an "other" error for the miss on
"a" leaves the store without an "L:a" entry, surfaces at position 0 only,
and changing that error result does not change position 1's output or the
"L:b" store entry. -/
theorem claim_C5_witness :
    storeGetEntry
        (resolvePhase exL (fun _ => [JSVal.err (.other "boom"), JSVal.val 3]) ["a", "b"] []).2.1
        "L:a" = none
    ∧ (overridedBatchLoad exL (fun _ => [JSVal.err (.other "boom"), JSVal.val 3])
        ["a", "b"] []).1[0]? = some (.err (.other "boom"))
    ∧ (overridedBatchLoad exL (fun _ => [JSVal.err (.other "zap"), JSVal.val 3])
        ["a", "b"] []).1[1]? =
      (overridedBatchLoad exL (fun _ => [JSVal.err (.other "boom"), JSVal.val 3])
        ["a", "b"] []).1[1]?
    ∧ storeGetEntry
        (resolvePhase exL (fun _ => [JSVal.err (.other "zap"), JSVal.val 3]) ["a", "b"] []).2.1
        "L:b" =
      storeGetEntry
        (resolvePhase exL (fun _ => [JSVal.err (.other "boom"), JSVal.val 3]) ["a", "b"] []).2.1
        "L:b" := by
  have h := claim_C5 exL (fun _ => [JSVal.err (.other "boom"), JSVal.val 3]) ["a", "b"] []
    0 ⟨"L:a", "a", .undef⟩ "boom" (by decide) (by decide)
  have hagree : ∀ j, j ≠ 0 →
      ((fun _ => [JSVal.err (.other "zap"), JSVal.val 3]) (missingKeys exL [] ["a", "b"])).getD j .undef
        = ((fun _ => [JSVal.err (.other "boom"), JSVal.val 3]) (missingKeys exL [] ["a", "b"])).getD j .undef := by
    intro j hj
    match j with
    | 0 => exact absurd rfl hj
    | 1 => rfl
    | (n + 2) => rfl
  have hc := h.2.2 (fun _ => [JSVal.err (.other "zap"), JSVal.val 3]) hagree
  exact ⟨h.1, h.2.1 0 (by decide) rfl, hc.1 1 (by decide) (by decide), hc.2 "L:b" (by decide)⟩
